import Mathlib

/-!
# Verification of the MyDealz comment monitor's extraction/dedup pipeline

Shallow embedding of `mydealz_monitor.py`.  Pure fragments of the Python
source are translated into executable Lean definitions; stateful fragments
(the seen-id list threaded through `run_once`) become explicit state
passing.  Python's `list.sort`, which raises `TypeError` when the
polymorphic sort keys mix `int` and `str`, is modelled by a stable
insertion sort in the `Except Unit` monad whose comparator fails exactly
on an int/str comparison; on inputs where every comparison is between
keys of one kind both algorithms succeed and agree on sortedness and
multiset of elements, which is all the theorems below use.
-/

namespace MydealzMonitor

/-- Canonical comment record produced by every extraction path
(`normalize_comment_item`, `extract_comments_from_dom`,
`extract_comments_from_preloaded_state`).  The DOM/embedded-state paths
build dicts without a `created_ts` key, which `comment.get("created_ts")`
reads as `None`; this is the `none` default. -/
structure Comment where
  id : String
  author : String := ""
  text : String := ""
  timestamp : String := ""
  images : List String := []
  created_ts : Option Int := none
deriving DecidableEq, Repr

/-- The polymorphic sort key of `comment_sort_key`: a Python `int` or `str`. -/
inductive SKey where
  | num : Int → SKey
  | str : String → SKey
deriving DecidableEq, Repr

def SKey.isNum : SKey → Bool
  | .num _ => true
  | .str _ => false

/-- Accumulates maximal runs of decimal digits, in order: the model of
`re.findall(r"\d+", cid)`.  `cur` is the reversed digit-run currently
being read. -/
def digitRunsAux : List Char → List Char → List (List Char)
  | cur, [] => if cur.isEmpty then [] else [cur.reverse]
  | cur, c :: cs =>
    if c.isDigit then digitRunsAux (c :: cur) cs
    else if cur.isEmpty then digitRunsAux [] cs
    else cur.reverse :: digitRunsAux [] cs

def digitRuns (s : String) : List (List Char) := digitRunsAux [] s.data

/-- Decimal value of a digit run: the model of `int(digits[-1])`. -/
def runToNat (run : List Char) : Nat :=
  run.foldl (fun a c => a * 10 + (c.toNat - '0'.toNat)) 0

/-- Last maximal run of digits of a string, parsed as an integer. -/
def lastDigitRun (s : String) : Option Nat :=
  (digitRuns s).getLast?.map runToNat

/-- `comment_sort_key` (mydealz_monitor.py:150-164): prefer `created_ts`
as an int, else the last run of digits of `id` as an int, else the `id`
string.  (`int(created_ts)` and `int(digits[-1])` cannot fail on the
values the pipeline stores, so the dead `except` branches vanish.) -/
def comment_sort_key (c : Comment) : SKey :=
  match c.created_ts with
  | some n => .num n
  | none =>
    match lastDigitRun c.id with
    | some d => .num (Int.ofNat d)
    | none => .str c.id

/-- Python's `<` on two sort keys: defined on int/int and str/str,
raising `TypeError` (modelled as `Except.error ()`) on int/str. -/
def pyLt : SKey → SKey → Except Unit Bool
  | .num a, .num b => .ok (decide (a < b))
  | .str a, .str b => .ok (decide (a < b))
  | _, _ => .error ()

/-- The non-strict order on keys of the same kind (`false` across kinds);
used only to state sortedness of outputs. -/
def keyLeB : SKey → SKey → Bool
  | .num a, .num b => decide (a ≤ b)
  | .str a, .str b => decide (a ≤ b)
  | _, _ => false

/-- Ordering on comments induced by their sort keys. -/
def cmpLeB (a b : Comment) : Bool := keyLeB (comment_sort_key a) (comment_sort_key b)

/-- Stable insertion of `c` into an already sorted list, comparing with
Python's `<` on the sort keys: `c` goes in front of the first strictly
greater element, hence after any element with an equal key.  A failing
comparison aborts the whole sort, as the uncaught `TypeError` does. -/
def insertE (c : Comment) : List Comment → Except Unit (List Comment)
  | [] => .ok [c]
  | b :: l =>
    match pyLt (comment_sort_key c) (comment_sort_key b) with
    | .error e => .error e
    | .ok true => .ok (c :: b :: l)
    | .ok false =>
      match insertE c l with
      | .error e => .error e
      | .ok rest => .ok (b :: rest)

def sortAux : List Comment → List Comment → Except Unit (List Comment)
  | acc, [] => .ok acc
  | acc, c :: cs =>
    match insertE c acc with
    | .error e => .error e
    | .ok acc2 => sortAux acc2 cs

/-- Model of `list.sort(key=comment_sort_key)` / `sorted(..., key=comment_sort_key)`:
a stable sort that raises (`Except.error ()`) exactly when it compares an
int key against a str key, as Python's sort does. -/
def sortByKeyE (l : List Comment) : Except Unit (List Comment) := sortAux [] l

/-- `append_seen` (mydealz_monitor.py:167-175).  `limit` is `SEEN_LIMIT`;
`del seen[:-SEEN_LIMIT]` keeps the last `limit` entries. -/
def append_seen (limit : Int) (seen : List String) (cid : String) : List String :=
  if cid = "" then seen
  else if cid ∈ seen then seen
  else
    let s2 := seen ++ [cid]
    if 0 < limit ∧ limit < (s2.length : Int) then
      s2.drop (s2.length - limit.toNat)
    else s2

/-- Model of `list(dict.fromkeys(xs))`: drop duplicates keeping the first
occurrence; `seen` holds the values already emitted. -/
def dedupF (seen : List String) : List String → List String
  | [] => []
  | x :: xs => if x ∈ seen then dedupF seen xs else x :: dedupF (x :: seen) xs

def dedup_first (l : List String) : List String := dedupF [] l

/-- The filtering-plus-resorting step of `run_once`
(mydealz_monitor.py:619-627): keep the candidates whose id is not in the
seen list, then sort them by `comment_sort_key`. -/
def run_once_new (seen : List String) (comments : List Comment) :
    Except Unit (List Comment) :=
  sortByKeyE (comments.filter (fun c => !(seen.contains c.id)))

/-! ## Image-suffix test and URL resolution -/

/-- A regex word character (`\w`), restricted to ASCII as all URLs the
pipeline handles are ASCII. -/
def isWordChar (c : Char) : Bool := c.isAlphanum || c = '_'

def imageExts : List (List Char) :=
  ["jpg".data, "jpeg".data, "png".data, "gif".data, "webp".data]

/-- Does `l` start with `.<ext>` followed by a word boundary? -/
def extMatchAt (l : List Char) : Bool :=
  imageExts.any (fun ext =>
    match l with
    | '.' :: rest =>
      ext.isPrefixOf rest &&
        (match rest.drop ext.length with
         | [] => true
         | c :: _ => !isWordChar c)
    | _ => false)

def imageExtSearchAux : List Char → Bool
  | [] => false
  | c :: cs => extMatchAt (c :: cs) || imageExtSearchAux cs

/-- `IMAGE_EXT_RE.search(s)` (mydealz_monitor.py:67): the pattern
`\.(?:jpg|jpeg|png|gif|webp)\b`, case-insensitive, matches somewhere in
`s`.  Case-insensitivity is realised by lowercasing the haystack. -/
def imageExtMatch (s : String) : Bool :=
  imageExtSearchAux (s.data.map Char.toLower)

/-- Characters a URI scheme may contain. -/
def isSchemeChar (c : Char) : Bool := c.isAlphanum || c = '+' || c = '-' || c = '.'

/-- Split `scheme:rest` into `(scheme, rest)` when the input starts with
a nonempty alphabetic-initial scheme followed by a colon. -/
def takeScheme (l : List Char) : Option (List Char × List Char) :=
  let sch := l.takeWhile isSchemeChar
  match l.drop sch.length with
  | ':' :: rest =>
    match sch with
    | [] => none
    | c :: _ => if c.isAlpha then some (sch, rest) else none
  | _ => none

/-- Split a character list on `/`, keeping empty segments, as Python's
`path.split('/')` does. -/
def splitSlash : List Char → List (List Char)
  | [] => [[]]
  | c :: cs =>
    if c = '/' then [] :: splitSlash cs
    else
      match splitSlash cs with
      | [] => [[c]]
      | seg :: segs => (c :: seg) :: segs

/-- RFC-3986-style dot-segment resolution as CPython's `urljoin` performs
it: `..` pops the previous segment (ignored at an empty stack), `.` is
dropped, and a trailing `.`/`..` re-appends an empty segment. -/
def resolveSegs (segs : List (List Char)) : List (List Char) :=
  let resolved := segs.foldl
    (fun acc seg =>
      if seg = ['.', '.'] then acc.dropLast
      else if seg = ['.'] then acc
      else acc ++ [seg])
    []
  match segs.getLast? with
  | some seg => if seg = ['.', '.'] || seg = ['.'] then resolved ++ [[]] else resolved
  | none => resolved

def joinSegs (segs : List (List Char)) : List Char :=
  match segs with
  | [] => []
  | s :: rest => rest.foldl (fun acc seg => acc ++ '/' :: seg) s

/-- Resolution of a scheme-less reference `url` against the scheme-less
part `baseRest` of the base (both after the `scheme:`). -/
def joinNoScheme (scheme : List Char) (baseRest url : List Char) : List Char :=
  match url with
  | '/' :: '/' :: _ => scheme ++ ':' :: url
  | _ =>
    let netloc : List Char :=
      match baseRest with
      | '/' :: '/' :: auth => '/' :: '/' :: auth.takeWhile (fun c => c ≠ '/')
      | _ => []
    let bpath : List Char :=
      match baseRest with
      | '/' :: '/' :: auth => auth.dropWhile (fun c => c ≠ '/')
      | p => p
    if url.isEmpty then scheme ++ ':' :: baseRest
    else
      let segs :=
        match url with
        | '/' :: _ => splitSlash url
        | _ => (splitSlash bpath).dropLast ++ splitSlash url
      let path := joinSegs (resolveSegs segs)
      let path := if path.isEmpty then ['/'] else path
      scheme ++ ':' :: (netloc ++ path)

/-- Model of Python's `urllib.parse.urljoin`, restricted to the http(s)
URL shapes this program produces: a reference carrying a different
scheme, or an authority (`//…`), is returned as is; otherwise its path
is merged with the base path and dot segments are resolved exactly as
CPython does.  Query/fragment suffixes ride along inside the path, which
coincides with CPython's output on references free of dot segments after
a `?`/`#`. -/
def urljoin (base url : String) : String :=
  if base = "" then url
  else if url = "" then base
  else
    match takeScheme url.data, takeScheme base.data with
    | some (s, rest), some (bs, brest) =>
      if s = bs then String.mk (joinNoScheme bs brest rest) else url
    | some _, none => url
    | none, some (bs, brest) => String.mk (joinNoScheme bs brest url.data)
    | none, none => url

/-! ## Content parsing (`parse_comment_content`) -/

/-- An `<img>` element as BeautifulSoup exposes it to the image loops:
the four attributes the code probes, empty string for an absent one. -/
structure ImgEl where
  src : String := ""
  dataSrc : String := ""
  dataLazy : String := ""
  srcset : String := ""
deriving DecidableEq, Repr

/-- Python `str.strip()` on ASCII whitespace. -/
def py_strip (s : String) : String :=
  String.mk ((s.data.dropWhile Char.isWhitespace).reverse.dropWhile Char.isWhitespace |>.reverse)

/-- `s.split(sep)[0]`: the prefix of `s` before the first `sep`. -/
def split_first (sep : Char) (s : String) : String :=
  String.mk (s.data.takeWhile (fun c => c ≠ sep))

/-- `srcset.split(',')[0].strip().split(' ')[0]` — the first URL of a
source-set attribute. -/
def srcset_first (s : String) : String :=
  split_first ' ' (py_strip (split_first ',' s))

/-- The candidate source of one `<img>`:
`img.get("src") or img.get("data-src") or img.get("data-lazy") or ""`,
falling back to the first source-set URL when all are empty. -/
def img_candidate (i : ImgEl) : String :=
  if i.src ≠ "" then i.src
  else if i.dataSrc ≠ "" then i.dataSrc
  else if i.dataLazy ≠ "" then i.dataLazy
  else if i.srcset ≠ "" then srcset_first i.srcset
  else ""

/-- The parsed view of a rich-content fragment: BeautifulSoup's document
structure is represented directly (its text rendering, the `<img>`
elements, and the `href` values of `<a href=…>` anchors), since HTML
parsing itself is outside the embedding. -/
structure ContentDoc where
  text : String := ""
  imgs : List ImgEl := []
  anchors : List String := []
deriving DecidableEq, Repr

/-- The raw image-source candidates that pass the suffix filter, in
collection order: first the `<img>` loop, then the anchor loop
(mydealz_monitor.py:233-243). -/
def content_image_candidates (doc : ContentDoc) : List String :=
  ((doc.imgs.map img_candidate).filter
      (fun s => s ≠ "" && imageExtMatch s)) ++
    doc.anchors.filter (fun h => imageExtMatch h)

/-- The collected image URLs before deduplication: each accepted
candidate resolved against the deal URL. -/
def content_image_urls (base : String) (doc : ContentDoc) : List String :=
  (content_image_candidates doc).map (urljoin base)

/-- `parse_comment_content` (mydealz_monitor.py:227-245): plain text plus
the deduplicated list of accepted, resolved image URLs.  (The empty
document gives `("", [])` exactly as the early-return does.) -/
def parse_comment_content (base : String) (doc : ContentDoc) :
    String × List String :=
  (doc.text, dedup_first (content_image_urls base doc))

/-! ## Markup-source merge (`extract_comments`) -/

/-- In-place enrichment of a DOM-pass record `c` from an embedded-state
record `fb` with the same id (mydealz_monitor.py:388-398): fill each of
author/text/timestamp only when the DOM pass left it empty, and when the
embedded-state record has images append them and re-deduplicate. -/
def merge_into (c fb : Comment) : Comment :=
  { c with
    author := if c.author = "" ∧ fb.author ≠ "" then fb.author else c.author
    text := if c.text = "" ∧ fb.text ≠ "" then fb.text else c.text
    timestamp :=
      if c.timestamp = "" ∧ fb.timestamp ≠ "" then fb.timestamp else c.timestamp
    images :=
      if fb.images ≠ [] then dedup_first (c.images ++ fb.images) else c.images }

/-- One step of the merge loop: an embedded-state record either enriches
the record already carrying its id (the `comment_map` lookup) or is
appended as a new comment. -/
def merge_one (cur : List Comment) (fb : Comment) : List Comment :=
  if cur.any (fun c => c.id = fb.id) then
    cur.map (fun c => if c.id = fb.id then merge_into c fb else c)
  else cur ++ [fb]

/-- The merge of `extract_comments` (mydealz_monitor.py:380-401): start
from the DOM-pass list and fold every embedded-state record in. -/
def merge_comments (dom fbs : List Comment) : List Comment :=
  fbs.foldl merge_one dom

/-- `extract_comments` end to end: merge, then sort by the ordering key
(mydealz_monitor.py:402). -/
def extract_comments (dom fbs : List Comment) : Except Unit (List Comment) :=
  sortByKeyE (merge_comments dom fbs)

/-! ## Persisted state (`load_state`) -/

/-- JSON values as `json.load` yields them.  Objects are association
lists; `json.load` already collapses duplicate keys (last wins), so an
object's keys are unique when it comes from a file. -/
inductive J where
  | null : J
  | jb : Bool → J
  | jn : Int → J
  | js : String → J
  | jarr : List J → J
  | jobj : List (String × J) → J

/-- The outcome of looking at the state file: absent, unreadable or
holding malformed JSON (`open`/`json.load` raised), or parsed. -/
inductive FileRead where
  | missing : FileRead
  | readError : FileRead
  | parsed : J → FileRead

/-- Python dict insertion: replace the value in place when the key
exists, otherwise append the pair. -/
def dinsert {α : Type} : List (String × α) → String → α → List (String × α)
  | [], k, v => [(k, v)]
  | (k', v') :: rest, k, v =>
    if k' = k then (k, v) :: rest else (k', v') :: dinsert rest k v

/-- First-match lookup; keys are unique in every dict this file builds. -/
def dlookup {α : Type} (d : List (String × α)) (k : String) : Option α :=
  (d.find? (fun p => p.1 = k)).map Prod.snd

/-- Python `dict.update`: fold the pairs of the second dict in. -/
def dict_update (d d2 : List (String × J)) : List (String × J) :=
  d2.foldl (fun acc p => dinsert acc p.1 p.2) d

def default_state : List (String × J) := [("seen_comment_ids", J.jarr [])]

/-- `load_state` (mydealz_monitor.py:129-142): start from the default
state, merge a parsed object over it, and force `seen_comment_ids` back
to `[]` when the stored value is not a list. -/
def load_state (f : FileRead) : List (String × J) :=
  let state :=
    match f with
    | .parsed (J.jobj l) => dict_update default_state l
    | _ => default_state
  match dlookup state "seen_comment_ids" with
  | some (J.jarr _) => state
  | _ => dinsert state "seen_comment_ids" (J.jarr [])

/-! ## Notification loop of `run_once` -/

/-- The per-comment notification loop of `run_once`
(mydealz_monitor.py:629-638), with the external notifier's reported
outcomes supplied as data: `outs` lists, per comment in order, the
`(message_ok, images_sent)` pair `send_comment_notification` returns.
The result is the final seen list (the value `save_state` then
persists) together with the two counters. -/
def processBatch (limit : Int) (seen : List String) :
    List Comment → List (Bool × Nat) → List String × Nat × Nat
  | [], _ => (seen, 0, 0)
  | c :: cs, outs =>
    let o := outs.headD (false, 0)
    let seen2 := append_seen limit seen c.id
    let r := processBatch limit seen2 cs outs.tail
    (r.1, (if o.1 then 1 else 0) + r.2.1, o.2 + r.2.2)

/-! ## Structured source (`normalize_comment_item`, `fetch_recent_comments`) -/

/-- A scalar JSON value as the GraphQL response delivers for the scalar
fields the query selects (`commentId`, `content`, `createdAt`,
`createdAtTs`, `username`). -/
inductive SVal where
  | snull : SVal
  | sb : Bool → SVal
  | sn : Int → SVal
  | ss : String → SVal
deriving DecidableEq, Repr

/-- Python truthiness of a scalar. -/
def svTruthy : SVal → Bool
  | .snull => false
  | .sb b => b
  | .sn n => decide (n ≠ 0)
  | .ss s => decide (s ≠ "")

/-- Python `str()` of a scalar. -/
def svToStr : SVal → String
  | .snull => "None"
  | .sb b => if b then "True" else "False"
  | .sn n => toString n
  | .ss s => s

/-- `x or ""` followed by `str(...)` as `normalize_comment_item` applies
it to optional scalar fields. -/
def pyOrStr (v : Option SVal) : String :=
  match v with
  | some w => if svTruthy w then svToStr w else ""
  | none => ""

/-- `int(x)` on a scalar, `none` for the `TypeError`/`ValueError` the
source catches.  `int` of a bool is 1/0; `int` of a string accepts an
optional sign before a nonempty digit run (whitespace already absent in
the values this API returns). -/
def pyIntOf : SVal → Option Int
  | .snull => none
  | .sb b => some (if b then 1 else 0)
  | .sn n => some n
  | .ss s =>
    match s.data with
    | '-' :: ds => if ds ≠ [] ∧ ds.all Char.isDigit then some (-(runToNat ds : Int)) else none
    | '+' :: ds => if ds ≠ [] ∧ ds.all Char.isDigit then some (runToNat ds : Int) else none
    | ds => if ds ≠ [] ∧ ds.all Char.isDigit then some (runToNat ds : Int) else none

/-- The `user { username }` sub-record. -/
structure UserRec where
  username : Option SVal := none
deriving DecidableEq, Repr

/-- One raw item of the GraphQL `comments.items` list.  The rich-content
string is carried in parsed form (see `ContentDoc`). -/
structure RawItem where
  commentId : Option SVal := none
  content : ContentDoc := {}
  createdAt : Option SVal := none
  createdAtTs : Option SVal := none
  user : Option UserRec := none
deriving DecidableEq, Repr

/-- Rendering `datetime.fromtimestamp(created_ts, tz=utc).astimezone().isoformat()`
depends on the host timezone; it is modelled by an injective placeholder
rendering of the epoch value.  No claim inspects the rendered form. -/
def iso_timestamp (n : Int) : String := "epoch:" ++ toString n

/-- `normalize_comment_item` (mydealz_monitor.py:247-272). -/
def normalize_comment_item (base : String) (item : RawItem) : Comment :=
  let comment_id := pyOrStr item.commentId
  let author :=
    match item.user with
    | some u => pyOrStr u.username
    | none => ""
  let created_ts :=
    match item.createdAtTs with
    | some v => pyIntOf v
    | none => none
  let timestamp :=
    match created_ts with
    | some n => iso_timestamp n
    | none => pyOrStr item.createdAt
  let parsed := parse_comment_content base item.content
  { id := comment_id
    author := author
    text := parsed.1
    images := parsed.2
    timestamp := timestamp
    created_ts := created_ts }

/-- The id-keyed dict `normalized` that `fetch_recent_comments` builds
(mydealz_monitor.py:279-283): items without an extractable id are
dropped, later items replace earlier ones with the same id in place. -/
def norm_fold (base : String) (items : List RawItem) : List (String × Comment) :=
  items.foldl
    (fun m raw =>
      let c := normalize_comment_item base raw
      if c.id ≠ "" then dinsert m c.id c else m)
    []

/-- The response-processing part of `fetch_recent_comments`
(mydealz_monitor.py:279-284): deduplicate by id (last wins), then sort
the surviving records by the ordering key. -/
def fetch_recent_comments (base : String) (items : List RawItem) :
    Except Unit (List Comment) :=
  sortByKeyE ((norm_fold base items).map Prod.snd)

/-! ## Lemmas about the key order and the modelled sort -/

theorem keyLeB_trans {a b c : SKey} (h1 : keyLeB a b = true) (h2 : keyLeB b c = true) :
    keyLeB a c = true := by
  rcases a with x | x <;> rcases b with y | y <;> rcases c with z | z <;>
    simp only [keyLeB] at h1 h2 ⊢ <;>
    first
      | exact (Bool.false_ne_true h1).elim
      | exact (Bool.false_ne_true h2).elim
      | exact decide_eq_true (le_trans (of_decide_eq_true h1) (of_decide_eq_true h2))

theorem pyLt_ok_true {a b : SKey} (h : pyLt a b = .ok true) :
    keyLeB a b = true ∧ keyLeB b a = false := by
  rcases a with x | x <;> rcases b with y | y <;>
    simp only [pyLt, Except.ok.injEq] at h <;>
    first
      | cases h
      | exact ⟨decide_eq_true (le_of_lt (of_decide_eq_true h)),
               decide_eq_false (not_le.mpr (of_decide_eq_true h))⟩

theorem pyLt_ok_false {a b : SKey} (h : pyLt a b = .ok false) : keyLeB b a = true := by
  rcases a with x | x <;> rcases b with y | y <;>
    simp only [pyLt, Except.ok.injEq] at h <;>
    first
      | cases h
      | exact decide_eq_true (not_lt.mp (of_decide_eq_false h))

theorem pyLt_total {a b : SKey} (h : a.isNum = b.isNum) : ∃ r, pyLt a b = .ok r := by
  cases a <;> cases b <;> simp_all [SKey.isNum, pyLt]

theorem insertE_perm {c : Comment} :
    ∀ {acc out : List Comment}, insertE c acc = .ok out → out.Perm (c :: acc) := by
  intro acc
  induction acc with
  | nil =>
    intro out h
    simp [insertE] at h
    simp [← h]
  | cons b l ih =>
    intro out h
    rw [insertE] at h
    cases hr : pyLt (comment_sort_key c) (comment_sort_key b) with
    | error e => rw [hr] at h; cases h
    | ok r =>
      rw [hr] at h
      cases r with
      | true =>
        simp at h
        simp [← h]
      | false =>
        simp at h
        cases hrest : insertE c l with
        | error e => rw [hrest] at h; cases h
        | ok rest =>
          rw [hrest] at h
          simp at h
          subst h
          exact ((ih hrest).cons b).trans (List.Perm.swap c b l)

theorem insertE_pairwise {c : Comment} :
    ∀ {acc out : List Comment}, insertE c acc = .ok out →
      acc.Pairwise (fun x y => cmpLeB x y = true) →
      out.Pairwise (fun x y => cmpLeB x y = true) := by
  intro acc
  induction acc with
  | nil =>
    intro out h _
    simp [insertE] at h
    simp [← h]
  | cons b l ih =>
    intro out h hp
    rw [insertE] at h
    cases hr : pyLt (comment_sort_key c) (comment_sort_key b) with
    | error e => rw [hr] at h; cases h
    | ok r =>
      rw [hr] at h
      cases r with
      | true =>
        simp at h
        subst h
        have hcb := (pyLt_ok_true hr).1
        refine List.Pairwise.cons ?_ hp
        intro x hx
        rcases List.mem_cons.mp hx with hxb | hxl
        · subst hxb; exact hcb
        · exact keyLeB_trans hcb (List.rel_of_pairwise_cons hp hxl)
      | false =>
        simp at h
        cases hrest : insertE c l with
        | error e => rw [hrest] at h; cases h
        | ok rest =>
          rw [hrest] at h
          simp at h
          subst h
          have hbc := pyLt_ok_false hr
          refine List.Pairwise.cons ?_ (ih hrest (List.Pairwise.of_cons hp))
          intro x hx
          have hx2 := (insertE_perm hrest).mem_iff.mp hx
          rcases List.mem_cons.mp hx2 with hxc | hxl
          · subst hxc; exact hbc
          · exact List.rel_of_pairwise_cons hp hxl

theorem insertE_total {c : Comment} {kb : Bool}
    (hc : (comment_sort_key c).isNum = kb) :
    ∀ {acc : List Comment}, (∀ x ∈ acc, (comment_sort_key x).isNum = kb) →
      ∃ out, insertE c acc = .ok out := by
  intro acc
  induction acc with
  | nil => intro _; exact ⟨[c], rfl⟩
  | cons b l ih =>
    intro hall
    have hb : (comment_sort_key b).isNum = kb := hall b (List.mem_cons_self b l)
    obtain ⟨r, hr⟩ := pyLt_total (hc.trans hb.symm)
    cases r with
    | true => exact ⟨c :: b :: l, by rw [insertE, hr]⟩
    | false =>
      obtain ⟨rest, hrest⟩ := ih (fun x hx => hall x (List.mem_cons_of_mem b hx))
      exact ⟨b :: rest, by rw [insertE, hr, hrest]⟩

theorem sortAux_perm :
    ∀ {cs acc out : List Comment}, sortAux acc cs = .ok out → out.Perm (acc ++ cs) := by
  intro cs
  induction cs with
  | nil =>
    intro acc out h
    simp [sortAux] at h
    simp [← h]
  | cons c cs ih =>
    intro acc out h
    rw [sortAux] at h
    cases hi : insertE c acc with
    | error e => rw [hi] at h; cases h
    | ok acc2 =>
      rw [hi] at h
      have h1 := ih h
      have h2 : (acc2 ++ cs).Perm ((c :: acc) ++ cs) := (insertE_perm hi).append_right cs
      have h3 : ((c :: acc) ++ cs).Perm (acc ++ c :: cs) := by
        simpa using (@List.perm_middle _ c acc cs).symm
      exact (h1.trans h2).trans h3

theorem sortAux_pairwise :
    ∀ {cs acc out : List Comment}, sortAux acc cs = .ok out →
      acc.Pairwise (fun x y => cmpLeB x y = true) →
      out.Pairwise (fun x y => cmpLeB x y = true) := by
  intro cs
  induction cs with
  | nil =>
    intro acc out h hp
    simp [sortAux] at h
    rwa [← h]
  | cons c cs ih =>
    intro acc out h hp
    rw [sortAux] at h
    cases hi : insertE c acc with
    | error e => rw [hi] at h; cases h
    | ok acc2 =>
      rw [hi] at h
      exact ih h (insertE_pairwise hi hp)

theorem sortAux_total {kb : Bool} :
    ∀ {cs acc : List Comment},
      (∀ x ∈ acc, (comment_sort_key x).isNum = kb) →
      (∀ x ∈ cs, (comment_sort_key x).isNum = kb) →
      ∃ out, sortAux acc cs = .ok out := by
  intro cs
  induction cs with
  | nil => intro acc _ _; exact ⟨acc, rfl⟩
  | cons c cs ih =>
    intro acc hacc hcs
    have hc : (comment_sort_key c).isNum = kb := hcs c (List.mem_cons_self c cs)
    obtain ⟨acc2, hi⟩ := insertE_total hc hacc
    have hacc2 : ∀ x ∈ acc2, (comment_sort_key x).isNum = kb := by
      intro x hx
      rcases List.mem_cons.mp ((insertE_perm hi).mem_iff.mp hx) with hxc | hxa
      · subst hxc; exact hc
      · exact hacc x hxa
    obtain ⟨out, ho⟩ := ih hacc2 (fun x hx => hcs x (List.mem_cons_of_mem c hx))
    exact ⟨out, by rw [sortAux, hi]; exact ho⟩

theorem sortByKeyE_perm {l out : List Comment} (h : sortByKeyE l = .ok out) :
    out.Perm l := by
  simpa using sortAux_perm h

theorem sortByKeyE_pairwise {l out : List Comment} (h : sortByKeyE l = .ok out) :
    out.Pairwise (fun x y => cmpLeB x y = true) :=
  sortAux_pairwise h (List.Pairwise.nil)

theorem sortByKeyE_total {l : List Comment} {kb : Bool}
    (h : ∀ x ∈ l, (comment_sort_key x).isNum = kb) :
    ∃ out, sortByKeyE l = .ok out :=
  sortAux_total (by intro x hx; cases hx) h

/-! ## Lemmas about deduplication -/

theorem dedupF_mem {x : String} :
    ∀ {l seen : List String}, x ∈ dedupF seen l ↔ x ∈ l ∧ x ∉ seen := by
  intro l
  induction l with
  | nil => intro seen; simp [dedupF]
  | cons y ys ih =>
    intro seen
    by_cases hy : y ∈ seen
    · rw [dedupF, if_pos hy, ih]
      constructor
      · rintro ⟨hx, hs⟩
        exact ⟨List.mem_cons_of_mem y hx, hs⟩
      · rintro ⟨hx, hs⟩
        rcases List.mem_cons.mp hx with rfl | hx2
        · exact absurd hy hs
        · exact ⟨hx2, hs⟩
    · rw [dedupF, if_neg hy]
      constructor
      · intro hx
        rcases List.mem_cons.mp hx with rfl | hx2
        · exact ⟨List.mem_cons_self x ys, hy⟩
        · have h2 := ih.mp hx2
          exact ⟨List.mem_cons_of_mem y h2.1,
                 fun hs => h2.2 (List.mem_cons_of_mem y hs)⟩
      · rintro ⟨hx, hs⟩
        rcases List.mem_cons.mp hx with rfl | hx2
        · exact List.mem_cons_self x _
        · by_cases hxy : x = y
          · subst hxy
            exact List.mem_cons_self x _
          · refine List.mem_cons_of_mem y (ih.mpr ⟨hx2, fun h2 => ?_⟩)
            rcases List.mem_cons.mp h2 with h3 | h3
            · exact hxy h3
            · exact hs h3

theorem dedupF_nodup : ∀ (l seen : List String), (dedupF seen l).Nodup := by
  intro l
  induction l with
  | nil => intro seen; simp [dedupF]
  | cons y ys ih =>
    intro seen
    by_cases hy : y ∈ seen
    · rw [dedupF, if_pos hy]
      exact ih seen
    · rw [dedupF, if_neg hy]
      exact List.nodup_cons.mpr
        ⟨fun hmem => (dedupF_mem.mp hmem).2 (List.mem_cons_self y seen), ih (y :: seen)⟩

theorem dedupF_sublist : ∀ (l seen : List String), (dedupF seen l).Sublist l := by
  intro l
  induction l with
  | nil => intro _; simp [dedupF]
  | cons y ys ih =>
    intro seen
    by_cases hy : y ∈ seen
    · rw [dedupF, if_pos hy]
      exact (ih seen).cons y
    · rw [dedupF, if_neg hy]
      exact (ih (y :: seen)).cons₂ y

theorem dedup_first_mem {x : String} {l : List String} : x ∈ dedup_first l ↔ x ∈ l := by
  rw [dedup_first, dedupF_mem]
  simp

theorem dedup_first_nodup (l : List String) : (dedup_first l).Nodup := dedupF_nodup l []

theorem dedup_first_sublist (l : List String) : (dedup_first l).Sublist l := dedupF_sublist l []

/-! ## Lemmas about `append_seen` -/

theorem append_seen_mem_self {L : Int} {s : List String} {c : String} (hc : c ≠ "") :
    c ∈ append_seen L s c := by
  rw [append_seen, if_neg hc]
  by_cases hm : c ∈ s
  · rw [if_pos hm]
    exact hm
  · rw [if_neg hm]
    simp only []
    by_cases ht : 0 < L ∧ L < ((s ++ [c]).length : Int)
    · rw [if_pos ht]
      have hL1 : 1 ≤ L.toNat := by omega
      have hk : (s ++ [c]).length - L.toNat ≤ s.length := by
        simp only [List.length_append, List.length_singleton]
        omega
      rw [List.drop_append_of_le_length hk]
      simp
    · rw [if_neg ht]
      simp

theorem append_seen_length_le (L : Int) (s : List String) (c : String) :
    (append_seen L s c).length ≤ s.length + 1 := by
  rw [append_seen]
  by_cases hc : c = ""
  · rw [if_pos hc]
    omega
  · rw [if_neg hc]
    by_cases hm : c ∈ s
    · rw [if_pos hm]
      omega
    · rw [if_neg hm]
      simp only []
      by_cases ht : 0 < L ∧ L < ((s ++ [c]).length : Int)
      · rw [if_pos ht]
        simp [List.length_drop]
      · rw [if_neg ht]
        simp

theorem append_seen_mem_of_mem {L : Int} {s : List String} {c x : String}
    (hx : x ∈ s) (hfit : L ≤ 0 ∨ ((s.length + 1 : Nat) : Int) ≤ L) :
    x ∈ append_seen L s c := by
  rw [append_seen]
  by_cases hc : c = ""
  · rw [if_pos hc]
    exact hx
  · rw [if_neg hc]
    by_cases hm : c ∈ s
    · rw [if_pos hm]
      exact hx
    · rw [if_neg hm]
      simp only []
      have hnt : ¬(0 < L ∧ L < ((s ++ [c]).length : Int)) := by
        simp only [List.length_append, List.length_singleton]
        push_cast
        omega
      rw [if_neg hnt]
      exact List.mem_append_left _ hx

theorem append_seen_of_mem {L : Int} {s : List String} {c : String} (hm : c ∈ s) :
    append_seen L s c = s := by
  rw [append_seen]
  by_cases hc : c = ""
  · rw [if_pos hc]
  · rw [if_neg hc, if_pos hm]

/-! ## Claim C6 -/

/-- Claim C6: `append_seen` is idempotent — appending an id twice leaves
the seen sequence (hence its membership, order and post-truncation size)
identical to appending it once, and appending an id already present
changes nothing. -/
theorem append_seen_idempotent (L : Int) (s : List String) (c : String) :
    append_seen L (append_seen L s c) c = append_seen L s c ∧
    (c ∈ s → append_seen L s c = s) := by
  constructor
  · by_cases hc : c = ""
    · subst hc
      simp [append_seen]
    · by_cases hm : c ∈ s
      · rw [append_seen_of_mem hm, append_seen_of_mem hm]
      · exact append_seen_of_mem (append_seen_mem_self hc)
  · intro hm
    exact append_seen_of_mem hm

/-- Concrete instance of `append_seen_idempotent`. -/
theorem append_seen_idempotent_witness :
    append_seen 3 (append_seen 3 ["a", "b"] "c") "c" = append_seen 3 ["a", "b"] "c" ∧
    append_seen 3 ["a", "b"] "a" = ["a", "b"] :=
  ⟨(append_seen_idempotent 3 ["a", "b"] "c").1,
   (append_seen_idempotent 3 ["a", "b"] "a").2 (by decide)⟩

/-! ## Claim C3 -/

/-- Claim C3, counterexample: sorting is not total on malformed input.
A list whose keys mix an integer (id `"42"`) and a string (id `"abc"`,
no digits) makes the comparison — and the whole sort — raise
`TypeError`, instead of degrading to string comparison. -/
theorem sortByKeyE_mixed_cex :
    sortByKeyE [{ id := "abc" }, { id := "42" }] = Except.error () := rfl

/-- Claim C3 (amended): the sort completes, and yields an ordered
permutation, on every comment list whose keys uniformly resolve to
integers or uniformly to strings; a list mixing the two kinds raises
`TypeError` (see `sortByKeyE_mixed_cex`) rather than degrading to string
comparison. -/
theorem sortByKeyE_spec (l : List Comment) (kb : Bool)
    (hk : ∀ c ∈ l, (comment_sort_key c).isNum = kb) :
    (sortByKeyE l).isOk = true ∧
    ∀ out, sortByKeyE l = .ok out →
      out.Perm l ∧ out.Pairwise (fun a b => cmpLeB a b = true) := by
  obtain ⟨out, ho⟩ := sortByKeyE_total hk
  refine ⟨by rw [ho]; rfl, ?_⟩
  intro out2 ho2
  exact ⟨sortByKeyE_perm ho2, sortByKeyE_pairwise ho2⟩

/-- Concrete instance of `sortByKeyE_spec`. -/
theorem sortByKeyE_spec_witness :
    (sortByKeyE [{ id := "b7" }, { id := "a2" }]).isOk = true ∧
    (([{ id := "a2" }, { id := "b7" }] : List Comment).Perm
        [{ id := "b7" }, { id := "a2" }] ∧
      ([{ id := "a2" }, { id := "b7" }] : List Comment).Pairwise
        (fun a b => cmpLeB a b = true)) :=
  ⟨(sortByKeyE_spec [{ id := "b7" }, { id := "a2" }] true (by decide)).1,
   (sortByKeyE_spec [{ id := "b7" }, { id := "a2" }] true (by decide)).2
     [{ id := "a2" }, { id := "b7" }] rfl⟩

/-! ## Claim C1 -/

/-- Claim C1, counterexample: the filtering step of `run_once` does not
always return the unseen candidates.  With seen-set `["9"]` and
candidates with ids `"9"`, `"x"`, `"2"`, the unseen candidates are the
records with ids `"x"` and `"2"`, but the re-sort compares their mixed
int/str keys and raises `TypeError`, so nothing is returned. -/
theorem run_once_new_mixed_cex :
    run_once_new ["9"] [{ id := "9" }, { id := "x" }, { id := "2" }] = Except.error () ∧
    List.filter (fun c => !(List.contains ["9"] c.id))
        ([{ id := "9" }, { id := "x" }, { id := "2" }] : List Comment) =
      [{ id := "x" }, { id := "2" }] :=
  ⟨rfl, rfl⟩

/-- Claim C1 (amended): for every seen-set and every candidate list whose
ordering keys uniformly resolve to integers or uniformly to strings
(otherwise the re-sort raises `TypeError`, see `run_once_new_mixed_cex`),
the filtering step of `run_once` returns exactly the candidates whose id
is not a member of the seen-set, re-sorted ascending by the ordering key
independent of their order in the candidate list. -/
theorem run_once_new_spec (seen : List String) (comments : List Comment) (kb : Bool)
    (hk : ∀ c ∈ comments, (comment_sort_key c).isNum = kb) :
    (run_once_new seen comments).isOk = true ∧
    ∀ out, run_once_new seen comments = .ok out →
      out.Perm (comments.filter (fun c => !(seen.contains c.id))) ∧
      (∀ c, c ∈ out ↔ (c ∈ comments ∧ c.id ∉ seen)) ∧
      out.Pairwise (fun a b => cmpLeB a b = true) := by
  have hk2 : ∀ c ∈ comments.filter (fun c => !(seen.contains c.id)),
      (comment_sort_key c).isNum = kb := by
    intro c hc
    exact hk c (List.mem_filter.mp hc).1
  obtain ⟨out, ho⟩ := sortByKeyE_total hk2
  refine ⟨by rw [run_once_new, ho]; rfl, ?_⟩
  intro out2 ho2
  have hperm := sortByKeyE_perm ho2
  refine ⟨hperm, ?_, sortByKeyE_pairwise ho2⟩
  intro c
  rw [hperm.mem_iff, List.mem_filter]
  simp

/-! ## Lemmas about digit runs (for Claim C2) -/

theorem digitRunsAux_no_digit :
    ∀ (l cur : List Char), (∀ c ∈ l, c.isDigit = false) →
      digitRunsAux cur l = if cur.isEmpty then [] else [cur.reverse] := by
  intro l
  induction l with
  | nil => intro cur _; rfl
  | cons c cs ih =>
    intro cur h
    have hc : c.isDigit = false := h c (List.mem_cons_self c cs)
    have hcs : digitRunsAux [] cs = [] := by
      simpa using ih [] (fun x hx => h x (List.mem_cons_of_mem c hx))
    rw [digitRunsAux, if_neg (by simp [hc])]
    by_cases hcur : cur.isEmpty = true
    · rw [if_pos hcur, if_pos hcur, hcs]
    · rw [if_neg hcur, if_neg hcur, hcs]

theorem digitRunsAux_digits :
    ∀ (run cur l : List Char), (∀ c ∈ run, c.isDigit = true) →
      digitRunsAux cur (run ++ l) = digitRunsAux (run.reverse ++ cur) l := by
  intro run
  induction run with
  | nil => intro cur l _; simp
  | cons c rs ih =>
    intro cur l h
    have hc : c.isDigit = true := h c (List.mem_cons_self c rs)
    rw [List.cons_append, digitRunsAux, if_pos hc,
        ih (c :: cur) l (fun x hx => h x (List.mem_cons_of_mem c hx))]
    simp [List.append_assoc]

theorem digitRunsAux_append :
    ∀ (pre cur l : List Char),
      (∀ ch, pre.getLast? = some ch → ch.isDigit = false) →
      (pre = [] → cur = []) →
      digitRunsAux cur (pre ++ l) = digitRunsAux cur pre ++ digitRunsAux [] l := by
  intro pre
  induction pre with
  | nil =>
    intro cur l _ hemp
    rw [hemp rfl]
    simp [digitRunsAux]
  | cons c pre2 ih =>
    intro cur l hlast _
    rcases pre2 with _ | ⟨c2, pre3⟩
    · have hc : c.isDigit = false := hlast c rfl
      have hsing : digitRunsAux cur [c] = if cur.isEmpty then [] else [cur.reverse] := by
        rw [digitRunsAux, if_neg (by simp [hc])]
        by_cases hcur : cur.isEmpty = true
        · rw [if_pos hcur, if_pos hcur]
          rfl
        · rw [if_neg hcur, if_neg hcur]
          rfl
      rw [List.cons_append, List.nil_append, digitRunsAux, if_neg (by simp [hc]), hsing]
      by_cases hcur : cur.isEmpty = true
      · rw [if_pos hcur, if_pos hcur, List.nil_append]
      · rw [if_neg hcur, if_neg hcur]
        rfl
    · have hlast2 : ∀ ch, (c2 :: pre3).getLast? = some ch → ch.isDigit = false := by
        intro ch h
        exact hlast ch (by rw [List.getLast?_cons_cons]; exact h)
      rw [List.cons_append]
      by_cases hc : c.isDigit = true
      · rw [digitRunsAux, if_pos hc]
        conv_rhs => rw [digitRunsAux, if_pos hc]
        exact ih (c :: cur) l hlast2 (fun h => List.noConfusion h)
      · rw [digitRunsAux, if_neg hc]
        conv_rhs => rw [digitRunsAux, if_neg hc]
        by_cases hcur : cur.isEmpty = true
        · rw [if_pos hcur]
          conv_rhs => rw [if_pos hcur]
          exact ih [] l hlast2 (fun _ => rfl)
        · rw [if_neg hcur]
          conv_rhs => rw [if_neg hcur]
          rw [ih [] l hlast2 (fun _ => rfl)]
          rfl

/-- The last maximal digit run of a decomposed string: when `run` is a
nonempty all-digit block, nothing after it is a digit, and nothing
directly before it is a digit, `lastDigitRun` finds exactly `run`. -/
theorem lastDigitRun_eq (pre run post : List Char) (hrun : run ≠ [])
    (hdig : ∀ ch ∈ run, ch.isDigit = true) (hpost : ∀ ch ∈ post, ch.isDigit = false)
    (hpre : ∀ ch, pre.getLast? = some ch → ch.isDigit = false) :
    lastDigitRun (String.mk (pre ++ run ++ post)) = some (runToNat run) := by
  have hdata : (String.mk (pre ++ run ++ post)).data = pre ++ (run ++ post) := by
    simp [List.append_assoc]
  rw [lastDigitRun, digitRuns, hdata,
      digitRunsAux_append pre [] (run ++ post) hpre (fun _ => rfl),
      digitRunsAux_digits run [] post hdig,
      digitRunsAux_no_digit post (run.reverse ++ []) hpost]
  have hne : ¬(run.reverse ++ []).isEmpty = true := by
    simp [hrun]
  rw [if_neg hne]
  simp [List.getLast?_concat]

/-! ## Claim C2 -/

/-- Claim C2: the ordering key is the integer `created_ts` when present;
otherwise the integer value of the last run of digits of the id;
otherwise the id string itself.  Consequently, in any successfully
sorted list, a comment with a smaller numeric `created_ts` appears
strictly before one with a larger numeric `created_ts`, regardless of
the ids. -/
theorem comment_sort_key_spec :
    (∀ (c : Comment) (n : Int), c.created_ts = some n → comment_sort_key c = .num n) ∧
    (∀ (c : Comment) (pre run post : List Char),
        c.created_ts = none → c.id = String.mk (pre ++ run ++ post) →
        run ≠ [] → (∀ ch ∈ run, ch.isDigit = true) →
        (∀ ch ∈ post, ch.isDigit = false) →
        (∀ ch, pre.getLast? = some ch → ch.isDigit = false) →
        comment_sort_key c = .num (Int.ofNat (runToNat run))) ∧
    (∀ c : Comment, c.created_ts = none → lastDigitRun c.id = none →
        comment_sort_key c = .str c.id) ∧
    (∀ (l out : List Comment) (A B : Comment) (a b : Int),
        sortByKeyE l = .ok out →
        A.created_ts = some a → B.created_ts = some b → a < b →
        ∀ (i j : Nat) (hi : i < out.length) (hj : j < out.length),
          out.get ⟨i, hi⟩ = A → out.get ⟨j, hj⟩ = B → i < j) := by
  have hkey : ∀ (c : Comment) (n : Int), c.created_ts = some n →
      comment_sort_key c = .num n := by
    intro c n h
    rw [comment_sort_key, h]
  refine ⟨hkey, ?_, ?_, ?_⟩
  · intro c pre run post hts hid hrun hdig hpost hpre
    rw [comment_sort_key, hts, hid, lastDigitRun_eq pre run post hrun hdig hpost hpre]
  · intro c hts hld
    rw [comment_sort_key, hts, hld]
  · intro l out A B a b hsort hA hB hab i j hi hj hgA hgB
    have hp := (List.pairwise_iff_get).mp (sortByKeyE_pairwise hsort)
    by_contra hij
    push_neg at hij
    rcases lt_or_eq_of_le hij with hji | hji
    · have hle := hp ⟨j, hj⟩ ⟨i, hi⟩ (Fin.mk_lt_mk.mpr hji)
      rw [hgA, hgB, cmpLeB, hkey A a hA, hkey B b hB] at hle
      simp only [keyLeB, decide_eq_true_eq] at hle
      omega
    · have hAB : A = B := by
        subst hji
        rw [← hgA, ← hgB]
      rw [hAB, hB] at hA
      have hab2 : b = a := Option.some.inj hA
      omega

/-- Concrete instance of `comment_sort_key_spec`. -/
theorem comment_sort_key_spec_witness :
    comment_sort_key { id := "x", created_ts := some 5 } = SKey.num 5 ∧
    comment_sort_key { id := "ab12cd7x" } = SKey.num (Int.ofNat (runToNat ['7'])) ∧
    comment_sort_key { id := "xyz" } = SKey.str "xyz" ∧
    (0 : Nat) < 1 := by
  refine ⟨comment_sort_key_spec.1 _ 5 rfl, ?_, comment_sort_key_spec.2.2.1 _ rfl rfl, ?_⟩
  · refine comment_sort_key_spec.2.1 { id := "ab12cd7x" } "ab12cd".data ['7'] ['x']
      rfl (by decide) (by decide) (by decide) (by decide) ?_
    intro ch h
    rw [show ("ab12cd".data.getLast?) = some 'd' from rfl] at h
    injection h with h2
    subst h2
    decide
  · exact comment_sort_key_spec.2.2.2
      [{ id := "p", created_ts := some 9 }, { id := "q", created_ts := some 4 }]
      [{ id := "q", created_ts := some 4 }, { id := "p", created_ts := some 9 }]
      { id := "q", created_ts := some 4 } { id := "p", created_ts := some 9 }
      4 9 rfl rfl rfl (by decide) 0 1 (by decide) (by decide) rfl rfl

/-- Concrete instance of `run_once_new_spec`. -/
theorem run_once_new_spec_witness :
    (run_once_new ["2"] [{ id := "7" }, { id := "2" }, { id := "5" }]).isOk = true ∧
    (([{ id := "5" }, { id := "7" }] : List Comment).Perm
        (List.filter (fun c => !(List.contains ["2"] c.id))
          ([{ id := "7" }, { id := "2" }, { id := "5" }] : List Comment)) ∧
      (∀ c, c ∈ ([{ id := "5" }, { id := "7" }] : List Comment) ↔
        (c ∈ ([{ id := "7" }, { id := "2" }, { id := "5" }] : List Comment) ∧
          c.id ∉ (["2"] : List String))) ∧
      ([{ id := "5" }, { id := "7" }] : List Comment).Pairwise
        (fun a b => cmpLeB a b = true)) :=
  ⟨(run_once_new_spec ["2"] [{ id := "7" }, { id := "2" }, { id := "5" }] true (by decide)).1,
   (run_once_new_spec ["2"] [{ id := "7" }, { id := "2" }, { id := "5" }] true (by decide)).2
     [{ id := "5" }, { id := "7" }] rfl⟩

/-! ## Claim C7 -/

/-- Accumulating distinct nonempty ids through `append_seen` from an
empty seen list keeps exactly the newest `L` of them: the front is
trimmed one entry at a time as each append overflows the cap. -/
theorem foldl_append_seen_eq_drop (L : Int) (hL : 0 < L) :
    ∀ (ids : List String), ids.Nodup → (∀ i ∈ ids, i ≠ "") →
      List.foldl (append_seen L) [] ids = ids.drop (ids.length - L.toNat) := by
  have hLt : (L.toNat : Int) = L := Int.toNat_of_nonneg (le_of_lt hL)
  have hL1 : 1 ≤ L.toNat := by omega
  intro ids
  induction ids using List.reverseRecOn with
  | nil => intro _ _; simp
  | append_singleton ids' c ih =>
    intro hnd hne
    rw [List.nodup_append] at hnd
    have hnd' : ids'.Nodup := hnd.1
    have hcni : c ∉ ids' := fun h => hnd.2.2 h (List.mem_singleton.mpr rfl)
    have hne' : ∀ i ∈ ids', i ≠ "" := fun i hi => hne i (List.mem_append_left _ hi)
    have hc : c ≠ "" := hne c (List.mem_append_right _ (List.mem_singleton.mpr rfl))
    rw [List.foldl_append, List.foldl_cons, List.foldl_nil, ih hnd' hne']
    have hcd : c ∉ ids'.drop (ids'.length - L.toNat) :=
      fun h => hcni (List.drop_subset _ _ h)
    rw [append_seen, if_neg hc, if_neg hcd]
    simp only []
    by_cases hlt : ids'.length < L.toNat
    · have hk0 : ids'.length - L.toNat = 0 := by omega
      rw [hk0, List.drop_zero]
      have hnt : ¬(0 < L ∧ L < (((ids' ++ [c]).length : Nat) : Int)) := by
        simp only [List.length_append, List.length_singleton]
        push_cast
        omega
      rw [if_neg hnt]
      have hk1 : (ids' ++ [c]).length - L.toNat = 0 := by
        simp only [List.length_append, List.length_singleton]
        omega
      rw [hk1, List.drop_zero]
    · have hge : L.toNat ≤ ids'.length := by omega
      have hlendrop : (ids'.drop (ids'.length - L.toNat)).length = L.toNat := by
        rw [List.length_drop]
        omega
      have ht : 0 < L ∧
          L < (((ids'.drop (ids'.length - L.toNat) ++ [c]).length : Nat) : Int) := by
        constructor
        · exact hL
        · simp only [List.length_append, List.length_singleton, hlendrop]
          push_cast
          omega
      rw [if_pos ht]
      have hlen2 : (ids'.drop (ids'.length - L.toNat) ++ [c]).length - L.toNat = 1 := by
        simp only [List.length_append, List.length_singleton, hlendrop]
        omega
      rw [hlen2, List.drop_append_of_le_length (by omega : 1 ≤ (ids'.drop (ids'.length - L.toNat)).length),
          List.drop_drop]
      have hj : (ids' ++ [c]).length - L.toNat = ids'.length - L.toNat + 1 := by
        simp only [List.length_append, List.length_singleton]
        omega
      rw [hj,
          List.drop_append_of_le_length
            (by omega : ids'.length - L.toNat + 1 ≤ ids'.length)]

/-- Claim C7: with the cap configured to 5000, after appending 5010
distinct nonempty ids through `append_seen`, exactly the 10 oldest ids
(the front of the sequence) are evicted and exactly the 5000 newest
remain, in their original relative order. -/
theorem seen_truncation_spec (ids : List String) (hlen : ids.length = 5010)
    (hnd : ids.Nodup) (hne : ∀ i ∈ ids, i ≠ "") :
    List.foldl (append_seen 5000) [] ids = ids.drop 10 := by
  have h := foldl_append_seen_eq_drop 5000 (by norm_num) ids hnd hne
  rw [hlen] at h
  simpa using h

/-- Concrete instance of `seen_truncation_spec`, on 5010 pairwise
distinct ids `"a"`, `"aa"`, `"aaa"`, …. -/
theorem seen_truncation_spec_witness :
    List.foldl (append_seen 5000) []
        ((List.range 5010).map (fun n => String.mk (List.replicate (n + 1) 'a'))) =
      ((List.range 5010).map (fun n => String.mk (List.replicate (n + 1) 'a'))).drop 10 := by
  apply seen_truncation_spec
  · simp
  · refine List.Nodup.map ?_ (List.nodup_range 5010)
    intro a b hab
    have h2 : List.replicate (a + 1) 'a' = List.replicate (b + 1) 'a' :=
      congrArg String.data hab
    have h3 := congrArg List.length h2
    simp only [List.length_replicate] at h3
    omega
  · intro i hi
    rcases List.mem_map.mp hi with ⟨n, _, hn⟩
    intro hcon
    rw [← hn] at hcon
    have h3 := congrArg List.length (congrArg String.data hcon)
    simp at h3

/-! ## Claim C9 -/

theorem processBatch_state_eq (L : Int) :
    ∀ (cs : List Comment) (seen : List String) (outs : List (Bool × Nat)),
      (processBatch L seen cs outs).1 =
        List.foldl (fun s c => append_seen L s c.id) seen cs := by
  intro cs
  induction cs with
  | nil => intro seen outs; rfl
  | cons c cs ih =>
    intro seen outs
    simp only [processBatch, List.foldl_cons]
    exact ih _ _

theorem foldl_append_seen_mem (L : Int) :
    ∀ (cs : List Comment) (seen : List String) (x : String), x ∈ seen →
      (L ≤ 0 ∨ ((seen.length + cs.length : Nat) : Int) ≤ L) →
      x ∈ List.foldl (fun s c => append_seen L s c.id) seen cs := by
  intro cs
  induction cs with
  | nil => intro seen x hx _; simpa using hx
  | cons c cs ih =>
    intro seen x hx hfit
    rw [List.foldl_cons]
    apply ih
    · apply append_seen_mem_of_mem hx
      rcases hfit with h | h
      · exact Or.inl h
      · right
        simp only [List.length_cons] at h
        push_cast at h ⊢
        omega
    · rcases hfit with h | h
      · exact Or.inl h
      · right
        have hl := append_seen_length_le L seen c.id
        simp only [List.length_cons] at h
        push_cast at h ⊢
        omega

theorem foldl_append_seen_mem_all (L : Int) :
    ∀ (cs : List Comment) (seen : List String),
      (∀ c ∈ cs, c.id ≠ "") →
      (L ≤ 0 ∨ ((seen.length + cs.length : Nat) : Int) ≤ L) →
      ∀ c ∈ cs, c.id ∈ List.foldl (fun s c => append_seen L s c.id) seen cs := by
  intro cs
  induction cs with
  | nil => intro seen _ _ c hc; cases hc
  | cons c0 cs ih =>
    intro seen hids hfit c hc
    rw [List.foldl_cons]
    have hfit2 : L ≤ 0 ∨
        (((append_seen L seen c0.id).length + cs.length : Nat) : Int) ≤ L := by
      rcases hfit with h | h
      · exact Or.inl h
      · right
        have hl := append_seen_length_le L seen c0.id
        simp only [List.length_cons] at h
        push_cast at h ⊢
        omega
    rcases List.mem_cons.mp hc with rfl | hc2
    · exact foldl_append_seen_mem L cs _ _
        (append_seen_mem_self (hids c (List.mem_cons_self c cs))) hfit2
    · exact ih _ (fun x hx => hids x (List.mem_cons_of_mem c0 hx)) hfit2 c hc2

/-- Claim C9: in the notification loop of `run_once`, the resulting seen
state is exactly the fold of `append_seen` over the batch — independent
of every reported send outcome — so a send failure neither prevents an
id from being marked seen nor blocks later comments, and (provided the
ids are nonempty and the batch fits under the cap) every processed
comment's id is in the state handed to `save_state`, even when every
send failed. -/
theorem run_once_marks_seen (L : Int) (seen : List String) (cs : List Comment)
    (outs outs' : List (Bool × Nat))
    (hids : ∀ c ∈ cs, c.id ≠ "")
    (hfit : L ≤ 0 ∨ ((seen.length + cs.length : Nat) : Int) ≤ L) :
    (processBatch L seen cs outs).1 =
      List.foldl (fun s c => append_seen L s c.id) seen cs ∧
    (processBatch L seen cs outs).1 = (processBatch L seen cs outs').1 ∧
    (∀ c ∈ cs, c.id ∈ (processBatch L seen cs outs).1) := by
  refine ⟨processBatch_state_eq L cs seen outs, ?_, ?_⟩
  · rw [processBatch_state_eq L cs seen outs, processBatch_state_eq L cs seen outs']
  · rw [processBatch_state_eq L cs seen outs]
    exact foldl_append_seen_mem_all L cs seen hids hfit

/-- Concrete instance of `run_once_marks_seen`: both sends report
failure, yet both ids end up in the seen state. -/
theorem run_once_marks_seen_witness :
    (processBatch 5000 ["0"] [{ id := "1" }, { id := "2" }] [(false, 0), (false, 0)]).1 =
      List.foldl (fun (s : List String) (c : Comment) => append_seen 5000 s c.id) ["0"]
        [{ id := "1" }, { id := "2" }] ∧
    (processBatch 5000 ["0"] [{ id := "1" }, { id := "2" }] [(false, 0), (false, 0)]).1 =
      (processBatch 5000 ["0"] [{ id := "1" }, { id := "2" }] [(true, 1), (false, 0)]).1 ∧
    (∀ c ∈ ([{ id := "1" }, { id := "2" }] : List Comment),
      c.id ∈ (processBatch 5000 ["0"] [{ id := "1" }, { id := "2" }]
        [(false, 0), (false, 0)]).1) :=
  run_once_marks_seen 5000 ["0"] [{ id := "1" }, { id := "2" }]
    [(false, 0), (false, 0)] [(true, 1), (false, 0)] (by decide) (Or.inr (by decide))

/-! ## Lemmas about Python dicts (for Claims C8 and C10) -/

theorem dlookup_cons_self {α : Type} (k : String) (v : α) (rest : List (String × α)) :
    dlookup ((k, v) :: rest) k = some v := by
  simp [dlookup, List.find?]

theorem dlookup_cons_ne {α : Type} {k0 k : String} (v0 : α) (rest : List (String × α))
    (h : k0 ≠ k) : dlookup ((k0, v0) :: rest) k = dlookup rest k := by
  rw [dlookup, dlookup, List.find?]
  simp [h]

theorem dlookup_eq_none {α : Type} {d : List (String × α)} {k : String}
    (h : k ∉ d.map Prod.fst) : dlookup d k = none := by
  rw [dlookup, List.find?_eq_none.mpr]
  · rfl
  · intro x hx
    simp only [decide_eq_true_eq]
    intro hk
    exact h (List.mem_map.mpr ⟨x, hx, hk⟩)

theorem dlookup_dinsert {α : Type} (d : List (String × α)) (k k' : String) (v : α) :
    dlookup (dinsert d k v) k' = if k' = k then some v else dlookup d k' := by
  induction d with
  | nil =>
    by_cases h : k' = k
    · subst h
      rw [dinsert, if_pos rfl, dlookup_cons_self]
    · rw [dinsert, if_neg h, dlookup_cons_ne v [] (fun hh => h hh.symm)]
  | cons p rest ih =>
    obtain ⟨k0, v0⟩ := p
    by_cases hk0 : k0 = k
    · subst hk0
      rw [dinsert, if_pos rfl]
      by_cases h : k' = k0
      · subst h
        rw [dlookup_cons_self, if_pos rfl]
      · rw [dlookup_cons_ne v rest (fun hh => h hh.symm), if_neg h,
            dlookup_cons_ne v0 rest (fun hh => h hh.symm)]
    · rw [dinsert, if_neg hk0]
      by_cases h : k0 = k'
      · subst h
        rw [dlookup_cons_self, dlookup_cons_self, if_neg (fun hh : k0 = k => hk0 hh)]
      · rw [dlookup_cons_ne _ _ h, dlookup_cons_ne v0 rest h, ih]

theorem mem_dinsert {α : Type} {d : List (String × α)} {k : String} {v : α} :
    ∀ p ∈ dinsert d k v, p ∈ d ∨ p = (k, v) := by
  induction d with
  | nil =>
    intro p hp
    rw [dinsert] at hp
    simp at hp
    exact Or.inr hp
  | cons q rest ih =>
    obtain ⟨k0, v0⟩ := q
    intro p hp
    rw [dinsert] at hp
    by_cases hk0 : k0 = k
    · rw [if_pos hk0] at hp
      rcases List.mem_cons.mp hp with rfl | h2
      · exact Or.inr rfl
      · exact Or.inl (List.mem_cons_of_mem _ h2)
    · rw [if_neg hk0] at hp
      rcases List.mem_cons.mp hp with rfl | h2
      · exact Or.inl (List.mem_cons_self _ _)
      · rcases ih p h2 with h | h
        · exact Or.inl (List.mem_cons_of_mem _ h)
        · exact Or.inr h

theorem dinsert_keys_subset {α : Type} (d : List (String × α)) (k : String) (v : α) :
    ∀ x ∈ (dinsert d k v).map Prod.fst, x ∈ d.map Prod.fst ∨ x = k := by
  intro x hx
  rcases List.mem_map.mp hx with ⟨p, hp, hpx⟩
  rcases mem_dinsert p hp with h | h
  · exact Or.inl (List.mem_map.mpr ⟨p, h, hpx⟩)
  · subst h
    exact Or.inr hpx.symm

theorem dinsert_keys_nodup {α : Type} (d : List (String × α)) (k : String) (v : α)
    (h : (d.map Prod.fst).Nodup) : ((dinsert d k v).map Prod.fst).Nodup := by
  induction d with
  | nil =>
    rw [dinsert]
    simp
  | cons q rest ih =>
    obtain ⟨k0, v0⟩ := q
    rw [List.map_cons, List.nodup_cons] at h
    by_cases hk0 : k0 = k
    · rw [dinsert, if_pos hk0, List.map_cons, List.nodup_cons]
      exact ⟨by rw [← hk0]; exact h.1, h.2⟩
    · rw [dinsert, if_neg hk0, List.map_cons, List.nodup_cons]
      refine ⟨?_, ih h.2⟩
      intro hmem
      rcases dinsert_keys_subset rest k v k0 hmem with h2 | h2
      · exact h.1 h2
      · exact hk0 h2

/-- Lookup through `dict.update`: an entry of the merged-in object wins,
otherwise the base dict answers.  Keys of a parsed JSON object are
unique (`json.load` collapses duplicates last-wins). -/
theorem dlookup_dict_update :
    ∀ (l : List (String × J)) (d : List (String × J)) (k : String),
      (l.map Prod.fst).Nodup →
      dlookup (dict_update d l) k =
        match dlookup l k with
        | some v => some v
        | none => dlookup d k := by
  intro l
  induction l with
  | nil => intro d k _; rfl
  | cons p rest ih =>
    intro d k hnd
    obtain ⟨k1, v1⟩ := p
    have step : dict_update d ((k1, v1) :: rest) = dict_update (dinsert d k1 v1) rest := by
      rw [dict_update, dict_update, List.foldl_cons]
    rw [List.map_cons, List.nodup_cons] at hnd
    rw [step, ih (dinsert d k1 v1) k hnd.2]
    by_cases h : k = k1
    · subst h
      have hkn : dlookup rest k = none := dlookup_eq_none hnd.1
      rw [hkn, dlookup_dinsert, if_pos rfl, dlookup_cons_self]
    · rw [dlookup_dinsert, if_neg h, dlookup_cons_ne v1 rest (fun hh => h hh.symm)]

/-! ## Claim C8 -/

/-- Claim C8: `load_state` (a total function here — every failure mode of
`open`/`json.load` is an input constructor) always yields a state whose
`seen_comment_ids` entry is a JSON list, the empty list whenever the
file is missing, unreadable or malformed, not a JSON object, or an
object whose `seen_comment_ids` is not a list; and a well-formed object's
other fields are preserved. -/
theorem load_state_spec :
    (load_state .missing = default_state ∧
      dlookup (load_state .missing) "seen_comment_ids" = some (J.jarr [])) ∧
    (load_state .readError = default_state ∧
      dlookup (load_state .readError) "seen_comment_ids" = some (J.jarr [])) ∧
    (∀ j : J, (∀ l, j ≠ J.jobj l) →
      load_state (.parsed j) = default_state ∧
      dlookup (load_state (.parsed j)) "seen_comment_ids" = some (J.jarr [])) ∧
    (∀ l : List (String × J), (l.map Prod.fst).Nodup →
      (∀ a, dlookup l "seen_comment_ids" ≠ some (J.jarr a)) →
      dlookup (load_state (.parsed (J.jobj l))) "seen_comment_ids" = some (J.jarr [])) ∧
    (∀ (l : List (String × J)) (k : String), (l.map Prod.fst).Nodup →
      k ≠ "seen_comment_ids" →
      dlookup (load_state (.parsed (J.jobj l))) k = dlookup l k) := by
  refine ⟨⟨rfl, rfl⟩, ⟨rfl, rfl⟩, ?_, ?_, ?_⟩
  · intro j hj
    cases j with
    | null => exact ⟨rfl, rfl⟩
    | jb b => exact ⟨rfl, rfl⟩
    | jn n => exact ⟨rfl, rfl⟩
    | js s => exact ⟨rfl, rfl⟩
    | jarr a => exact ⟨rfl, rfl⟩
    | jobj l => exact (hj l rfl).elim
  · intro l hnd hnla
    have hupd := dlookup_dict_update l default_state "seen_comment_ids" hnd
    have hst : load_state (.parsed (J.jobj l)) =
        (match dlookup (dict_update default_state l) "seen_comment_ids" with
          | some (J.jarr _) => dict_update default_state l
          | _ => dinsert (dict_update default_state l) "seen_comment_ids" (J.jarr [])) := rfl
    cases hl : dlookup l "seen_comment_ids" with
    | none =>
      rw [hl] at hupd
      have hdef : dlookup default_state "seen_comment_ids" = some (J.jarr []) := rfl
      rw [hdef] at hupd
      rw [hst, hupd]
      exact hupd
    | some v =>
      rw [hl] at hupd
      cases v with
      | jarr a => exact (hnla a hl).elim
      | null =>
        rw [hst, hupd, dlookup_dinsert, if_pos rfl]
      | jb b =>
        rw [hst, hupd, dlookup_dinsert, if_pos rfl]
      | jn n =>
        rw [hst, hupd, dlookup_dinsert, if_pos rfl]
      | js s =>
        rw [hst, hupd, dlookup_dinsert, if_pos rfl]
      | jobj o =>
        rw [hst, hupd, dlookup_dinsert, if_pos rfl]
  · intro l k hnd hk
    have hupd := dlookup_dict_update l default_state k hnd
    have hdef : dlookup default_state k = none :=
      dlookup_eq_none (by simp [default_state, fun h : k = "seen_comment_ids" => hk h])
    rw [hdef] at hupd
    have hlk : dlookup (dict_update default_state l) k = dlookup l k := by
      rw [hupd]
      cases dlookup l k <;> rfl
    have hst : load_state (.parsed (J.jobj l)) =
        (match dlookup (dict_update default_state l) "seen_comment_ids" with
          | some (J.jarr _) => dict_update default_state l
          | _ => dinsert (dict_update default_state l) "seen_comment_ids" (J.jarr [])) := rfl
    rw [hst]
    cases hseen : dlookup (dict_update default_state l) "seen_comment_ids" with
    | none =>
      rw [dlookup_dinsert, if_neg hk, hlk]
    | some v =>
      cases v with
      | jarr a => exact hlk
      | null => rw [dlookup_dinsert, if_neg hk, hlk]
      | jb b => rw [dlookup_dinsert, if_neg hk, hlk]
      | jn n => rw [dlookup_dinsert, if_neg hk, hlk]
      | js s => rw [dlookup_dinsert, if_neg hk, hlk]
      | jobj o => rw [dlookup_dinsert, if_neg hk, hlk]

/-- Concrete instance of `load_state_spec`: a non-object file, an object
whose stored seen-ids field is not a list, and preservation of an
unknown field. -/
theorem load_state_spec_witness :
    (load_state (.parsed (J.js "oops")) = default_state ∧
      dlookup (load_state (.parsed (J.js "oops"))) "seen_comment_ids" = some (J.jarr [])) ∧
    dlookup (load_state (.parsed (J.jobj
      [("seen_comment_ids", J.jn 3), ("x", J.jb true)]))) "seen_comment_ids" =
      some (J.jarr []) ∧
    dlookup (load_state (.parsed (J.jobj
      [("seen_comment_ids", J.jn 3), ("x", J.jb true)]))) "x" =
      dlookup [("seen_comment_ids", J.jn 3), ("x", J.jb true)] "x" :=
  ⟨load_state_spec.2.2.1 (J.js "oops") (fun l h => J.noConfusion h),
   load_state_spec.2.2.2.1 [("seen_comment_ids", J.jn 3), ("x", J.jb true)]
     (by decide)
     (fun a h => by
       rw [dlookup_cons_self] at h
       injection h with h2
       exact J.noConfusion h2),
   load_state_spec.2.2.2.2 [("seen_comment_ids", J.jn 3), ("x", J.jb true)] "x"
     (by decide) (by decide)⟩

/-! ## Lemmas about the markup-source merge (Claim C4) -/

theorem merge_one_of_any_false {cur : List Comment} {fb : Comment}
    (hany : ¬ cur.any (fun c => c.id = fb.id) = true) :
    merge_one cur fb = cur ++ [fb] := by
  rw [merge_one, if_neg hany]

theorem merge_one_ids_of_any_true {cur : List Comment} {fb : Comment}
    (hany : cur.any (fun c => c.id = fb.id) = true) :
    (merge_one cur fb).map Comment.id = cur.map Comment.id := by
  rw [merge_one, if_pos hany, List.map_map]
  apply List.map_congr_left
  intro c _
  by_cases h : c.id = fb.id
  · simp only [Function.comp_apply, if_pos h]
    rfl
  · simp only [Function.comp_apply, if_neg h]

theorem merge_frame :
    ∀ (fbs cur : List Comment) (c : Comment),
      c ∈ cur → (∀ f ∈ fbs, f.id ≠ c.id) →
      c ∈ List.foldl merge_one cur fbs := by
  intro fbs
  induction fbs with
  | nil => intro cur c hc _; simpa using hc
  | cons f fbs ih =>
    intro cur c hc hne
    rw [List.foldl_cons]
    refine ih _ c ?_ (fun f' hf' => hne f' (List.mem_cons_of_mem f hf'))
    rw [merge_one]
    by_cases hany : cur.any (fun x => x.id = f.id) = true
    · rw [if_pos hany]
      refine List.mem_map.mpr ⟨c, hc, ?_⟩
      rw [if_neg (fun h => hne f (List.mem_cons_self f fbs) h.symm)]
    · rw [if_neg hany]
      exact List.mem_append_left _ hc

theorem merge_fold_ids_sub :
    ∀ (fbs cur : List Comment) (x : String),
      x ∈ (List.foldl merge_one cur fbs).map Comment.id →
      x ∈ cur.map Comment.id ∨ x ∈ fbs.map Comment.id := by
  intro fbs
  induction fbs with
  | nil => intro cur x hx; exact Or.inl (by simpa using hx)
  | cons f fbs ih =>
    intro cur x hx
    rw [List.foldl_cons] at hx
    rcases ih _ x hx with h | h
    · by_cases hany : cur.any (fun c => c.id = f.id) = true
      · rw [merge_one_ids_of_any_true hany] at h
        exact Or.inl h
      · rw [merge_one_of_any_false hany, List.map_append] at h
        rcases List.mem_append.mp h with h2 | h2
        · exact Or.inl h2
        · right
          rw [List.map_cons]
          simp at h2
          simp [h2]
    · right
      rw [List.map_cons]
      exact List.mem_cons_of_mem _ h

theorem merge_one_ids_nodup {cur : List Comment} (fb : Comment)
    (h : (cur.map Comment.id).Nodup) : ((merge_one cur fb).map Comment.id).Nodup := by
  by_cases hany : cur.any (fun c => c.id = fb.id) = true
  · rw [merge_one_ids_of_any_true hany]
    exact h
  · rw [merge_one_of_any_false hany, List.map_append]
    rw [List.nodup_append]
    refine ⟨h, by simp, ?_⟩
    intro x hx hx2
    simp at hx2
    subst hx2
    rcases List.mem_map.mp hx with ⟨c, hc, hcid⟩
    rw [List.any_eq_true] at hany
    exact hany ⟨c, hc, by simp [hcid]⟩

theorem merge_fold_ids_nodup :
    ∀ (fbs cur : List Comment), (cur.map Comment.id).Nodup →
      ((List.foldl merge_one cur fbs).map Comment.id).Nodup := by
  intro fbs
  induction fbs with
  | nil => intro cur h; simpa using h
  | cons f fbs ih =>
    intro cur h
    rw [List.foldl_cons]
    exact ih _ (merge_one_ids_nodup f h)

theorem merge_into_fields (d f : Comment) (himg : d.images.Nodup) :
    (merge_into d f).id = d.id ∧
    ((merge_into d f).author ≠ "" ↔ (d.author ≠ "" ∨ f.author ≠ "")) ∧
    (d.author ≠ "" → (merge_into d f).author = d.author) ∧
    ((merge_into d f).text ≠ "" ↔ (d.text ≠ "" ∨ f.text ≠ "")) ∧
    (d.text ≠ "" → (merge_into d f).text = d.text) ∧
    ((merge_into d f).timestamp ≠ "" ↔ (d.timestamp ≠ "" ∨ f.timestamp ≠ "")) ∧
    (d.timestamp ≠ "" → (merge_into d f).timestamp = d.timestamp) ∧
    (∀ u, u ∈ (merge_into d f).images ↔ (u ∈ d.images ∨ u ∈ f.images)) ∧
    (merge_into d f).images.Nodup := by
  refine ⟨rfl, ?_, ?_, ?_, ?_, ?_, ?_, ?_, ?_⟩
  · simp only [merge_into]
    by_cases hd : d.author = "" <;> by_cases hf : f.author = "" <;> simp [hd, hf]
  · intro h
    simp only [merge_into]
    rw [if_neg (fun hh => h hh.1)]
  · simp only [merge_into]
    by_cases hd : d.text = "" <;> by_cases hf : f.text = "" <;> simp [hd, hf]
  · intro h
    simp only [merge_into]
    rw [if_neg (fun hh => h hh.1)]
  · simp only [merge_into]
    by_cases hd : d.timestamp = "" <;> by_cases hf : f.timestamp = "" <;> simp [hd, hf]
  · intro h
    simp only [merge_into]
    rw [if_neg (fun hh => h hh.1)]
  · intro u
    simp only [merge_into]
    by_cases hf : f.images = []
    · rw [if_neg (by simp [hf])]
      simp [hf]
    · rw [if_pos hf, dedup_first_mem, List.mem_append]
  · simp only [merge_into]
    by_cases hf : f.images = []
    · rw [if_neg (by simp [hf])]
      exact himg
    · rw [if_pos hf]
      exact dedup_first_nodup _

/-! ## Claim C4 -/

/-- Claim C4: the merge of `extract_comments` builds from the DOM pass
first — a DOM record with no embedded-state counterpart survives
unchanged — fills only the author/text/timestamp fields the DOM record
left empty, merges image lists with deduplication, appends
embedded-state records with unmatched ids as new comments, never loses a
non-empty field present in either source, and keeps ids unique.
Hypotheses mirror the per-batch id-uniqueness and per-record image
deduplication that both passes guarantee (spec §3). -/
theorem extract_comments_merge_spec (dom fbs : List Comment)
    (hdom : (dom.map Comment.id).Nodup) (hfbs : (fbs.map Comment.id).Nodup)
    (himg : ∀ c ∈ dom, c.images.Nodup) :
    (∀ d ∈ dom, (∀ f ∈ fbs, f.id ≠ d.id) → d ∈ merge_comments dom fbs) ∧
    (∀ f ∈ fbs, (∀ d ∈ dom, d.id ≠ f.id) → f ∈ merge_comments dom fbs) ∧
    (∀ d ∈ dom, ∀ f ∈ fbs, d.id = f.id → merge_into d f ∈ merge_comments dom fbs) ∧
    (∀ d ∈ dom, ∀ f ∈ fbs, d.id = f.id →
      (merge_into d f).id = d.id ∧
      ((merge_into d f).author ≠ "" ↔ (d.author ≠ "" ∨ f.author ≠ "")) ∧
      (d.author ≠ "" → (merge_into d f).author = d.author) ∧
      ((merge_into d f).text ≠ "" ↔ (d.text ≠ "" ∨ f.text ≠ "")) ∧
      (d.text ≠ "" → (merge_into d f).text = d.text) ∧
      ((merge_into d f).timestamp ≠ "" ↔ (d.timestamp ≠ "" ∨ f.timestamp ≠ "")) ∧
      (d.timestamp ≠ "" → (merge_into d f).timestamp = d.timestamp) ∧
      (∀ u, u ∈ (merge_into d f).images ↔ (u ∈ d.images ∨ u ∈ f.images)) ∧
      (merge_into d f).images.Nodup) ∧
    ((merge_comments dom fbs).map Comment.id).Nodup := by
  refine ⟨?_, ?_, ?_, ?_, merge_fold_ids_nodup fbs dom hdom⟩
  · intro d hd hne
    exact merge_frame fbs dom d hd hne
  · intro f hf hne
    obtain ⟨l1, l2, rfl⟩ := List.append_of_mem hf
    have hids := hfbs
    rw [List.map_append, List.map_cons, List.nodup_append] at hids
    have hf1 : f.id ∉ l1.map Comment.id := fun hmem =>
      hids.2.2 hmem (List.mem_cons_self f.id _)
    have hf2 : f.id ∉ l2.map Comment.id := (List.nodup_cons.mp hids.2.1).1
    rw [merge_comments, List.foldl_append, List.foldl_cons]
    have hcur : f.id ∉ (List.foldl merge_one dom l1).map Comment.id := by
      intro hmem
      rcases merge_fold_ids_sub l1 dom f.id hmem with h | h
      · rcases List.mem_map.mp h with ⟨d, hd, hdid⟩
        exact hne d hd hdid
      · exact hf1 h
    have hany : ¬ (List.foldl merge_one dom l1).any (fun c => c.id = f.id) = true := by
      intro ha
      rw [List.any_eq_true] at ha
      rcases ha with ⟨c, hc, hcid⟩
      simp only [decide_eq_true_eq] at hcid
      exact hcur (List.mem_map.mpr ⟨c, hc, hcid⟩)
    rw [merge_one_of_any_false hany]
    refine merge_frame l2 _ f (List.mem_append_right _ (by simp)) ?_
    intro f' hf' h
    exact hf2 (List.mem_map.mpr ⟨f', hf', h⟩)
  · intro d hd f hf hid
    obtain ⟨l1, l2, rfl⟩ := List.append_of_mem hf
    have hids := hfbs
    rw [List.map_append, List.map_cons, List.nodup_append] at hids
    have hf1 : f.id ∉ l1.map Comment.id := fun hmem =>
      hids.2.2 hmem (List.mem_cons_self f.id _)
    have hf2 : f.id ∉ l2.map Comment.id := (List.nodup_cons.mp hids.2.1).1
    rw [merge_comments, List.foldl_append, List.foldl_cons]
    have hd1 : d ∈ List.foldl merge_one dom l1 := by
      refine merge_frame l1 dom d hd ?_
      intro f' hf' h
      exact hf1 (List.mem_map.mpr ⟨f', hf', h.trans hid⟩)
    have hany : (List.foldl merge_one dom l1).any (fun c => c.id = f.id) = true := by
      rw [List.any_eq_true]
      exact ⟨d, hd1, by simp [hid]⟩
    rw [merge_one, if_pos hany]
    refine merge_frame l2 _ (merge_into d f)
      (List.mem_map.mpr ⟨d, hd1, by rw [if_pos hid]⟩) ?_
    intro f' hf' h
    exact hf2 (List.mem_map.mpr ⟨f', hf', by rw [h]; exact hid⟩)
  · intro d hd f hf hid
    exact merge_into_fields d f (himg d hd)

/-- Concrete instance of `extract_comments_merge_spec`: a matched pair
(id `"1"`), an unmatched DOM record (id `"3"`) and an unmatched
embedded-state record (id `"2"`). -/
theorem extract_comments_merge_spec_witness :
    ({ id := "3", text := "t3" } : Comment) ∈
      merge_comments
        [{ id := "1", author := "alice", images := ["https://x/a.jpg"] },
         { id := "3", text := "t3" }]
        [{ id := "1", text := "hello", timestamp := "ts",
           images := ["https://x/a.jpg", "https://x/b.png"] },
         { id := "2", author := "bob" }] ∧
    ({ id := "2", author := "bob" } : Comment) ∈
      merge_comments
        [{ id := "1", author := "alice", images := ["https://x/a.jpg"] },
         { id := "3", text := "t3" }]
        [{ id := "1", text := "hello", timestamp := "ts",
           images := ["https://x/a.jpg", "https://x/b.png"] },
         { id := "2", author := "bob" }] ∧
    merge_into
        { id := "1", author := "alice", images := ["https://x/a.jpg"] }
        { id := "1", text := "hello", timestamp := "ts",
          images := ["https://x/a.jpg", "https://x/b.png"] } ∈
      merge_comments
        [{ id := "1", author := "alice", images := ["https://x/a.jpg"] },
         { id := "3", text := "t3" }]
        [{ id := "1", text := "hello", timestamp := "ts",
           images := ["https://x/a.jpg", "https://x/b.png"] },
         { id := "2", author := "bob" }] ∧
    (∀ u, u ∈ (merge_into
        { id := "1", author := "alice", images := ["https://x/a.jpg"] }
        { id := "1", text := "hello", timestamp := "ts",
          images := ["https://x/a.jpg", "https://x/b.png"] }).images ↔
      (u ∈ ({ id := "1", author := "alice",
              images := ["https://x/a.jpg"] } : Comment).images ∨
       u ∈ ({ id := "1", text := "hello", timestamp := "ts",
              images := ["https://x/a.jpg", "https://x/b.png"] } : Comment).images)) ∧
    ((merge_comments
        [{ id := "1", author := "alice", images := ["https://x/a.jpg"] },
         { id := "3", text := "t3" }]
        [{ id := "1", text := "hello", timestamp := "ts",
           images := ["https://x/a.jpg", "https://x/b.png"] },
         { id := "2", author := "bob" }]).map Comment.id).Nodup := by
  have h := extract_comments_merge_spec
    [{ id := "1", author := "alice", images := ["https://x/a.jpg"] },
     { id := "3", text := "t3" }]
    [{ id := "1", text := "hello", timestamp := "ts",
       images := ["https://x/a.jpg", "https://x/b.png"] },
     { id := "2", author := "bob" }]
    (by decide) (by decide) (by decide)
  exact ⟨h.1 { id := "3", text := "t3" } (by decide) (by decide),
         h.2.1 { id := "2", author := "bob" } (by decide) (by decide),
         h.2.2.1 { id := "1", author := "alice", images := ["https://x/a.jpg"] }
           (by decide)
           { id := "1", text := "hello", timestamp := "ts",
             images := ["https://x/a.jpg", "https://x/b.png"] }
           (by decide) rfl,
         (h.2.2.2.1 { id := "1", author := "alice", images := ["https://x/a.jpg"] }
           (by decide)
           { id := "1", text := "hello", timestamp := "ts",
             images := ["https://x/a.jpg", "https://x/b.png"] }
           (by decide) rfl).2.2.2.2.2.2.2.1,
         h.2.2.2.2⟩

/-! ## Claim C5 -/

/-- Claim C5, counterexample: the suffix pattern is checked on the raw
candidate before URL resolution, and resolution can destroy the match.
The anchor href `"a.png/../b"` matches the pattern, but its resolution
against the deal URL is `"https://www.mydealz.de/b"`, which does not —
yet it is stored in the images list. -/
theorem parse_comment_content_suffix_cex :
    (parse_comment_content "https://www.mydealz.de/deal-123"
        { text := "", imgs := [], anchors := ["a.png/../b"] }).2 =
      ["https://www.mydealz.de/b"] ∧
    imageExtMatch "a.png/../b" = true ∧
    imageExtMatch "https://www.mydealz.de/b" = false :=
  ⟨rfl, rfl, rfl⟩

/-- Claim C5 (amended): every URL in a comment's images list is the
resolution against the deal URL of a candidate source that matched the
image-file-suffix pattern — the pattern holds of the pre-resolution
candidate, not necessarily of the stored URL (see
`parse_comment_content_suffix_cex`) — and the list contains no
duplicates, preserving first-seen insertion order. -/
theorem parse_comment_content_images_spec (base : String) (doc : ContentDoc) :
    ((parse_comment_content base doc).2).Nodup ∧
    ((parse_comment_content base doc).2).Sublist (content_image_urls base doc) ∧
    (∀ u ∈ content_image_urls base doc, u ∈ (parse_comment_content base doc).2) ∧
    (∀ u ∈ (parse_comment_content base doc).2,
      ∃ s ∈ content_image_candidates doc, imageExtMatch s = true ∧ u = urljoin base s) ∧
    (∀ s ∈ content_image_candidates doc, imageExtMatch s = true) := by
  have hcand : ∀ s ∈ content_image_candidates doc, imageExtMatch s = true := by
    intro s hs
    rw [content_image_candidates] at hs
    rcases List.mem_append.mp hs with h | h
    · have h2 := (List.mem_filter.mp h).2
      rw [Bool.and_eq_true] at h2
      exact h2.2
    · exact (List.mem_filter.mp h).2
  refine ⟨dedup_first_nodup _, dedup_first_sublist _, ?_, ?_, hcand⟩
  · intro u hu
    exact dedup_first_mem.mpr hu
  · intro u hu
    have hu2 : u ∈ content_image_urls base doc := dedup_first_mem.mp hu
    rcases List.mem_map.mp hu2 with ⟨s, hs, rfl⟩
    exact ⟨s, hs, hcand s hs, rfl⟩

/-- Concrete instance of `parse_comment_content_images_spec`: one
`<img>` and two anchors, one anchor duplicating the image URL. -/
theorem parse_comment_content_images_spec_witness :
    ((parse_comment_content "https://www.mydealz.de/deal-123"
        { text := "t", imgs := [{ src := "x.jpg" }],
          anchors := ["y.png", "x.jpg"] }).2).Nodup ∧
    "https://www.mydealz.de/x.jpg" ∈
      (parse_comment_content "https://www.mydealz.de/deal-123"
        { text := "t", imgs := [{ src := "x.jpg" }],
          anchors := ["y.png", "x.jpg"] }).2 ∧
    (∃ s ∈ content_image_candidates
        { text := "t", imgs := [{ src := "x.jpg" }],
          anchors := ["y.png", "x.jpg"] },
      imageExtMatch s = true ∧
        "https://www.mydealz.de/x.jpg" = urljoin "https://www.mydealz.de/deal-123" s) ∧
    imageExtMatch "y.png" = true := by
  have h := parse_comment_content_images_spec "https://www.mydealz.de/deal-123"
    { text := "t", imgs := [{ src := "x.jpg" }], anchors := ["y.png", "x.jpg"] }
  exact ⟨h.1,
         h.2.2.1 "https://www.mydealz.de/x.jpg" (by decide),
         h.2.2.2.1 "https://www.mydealz.de/x.jpg" (by decide),
         h.2.2.2.2 "y.png" (by decide)⟩

/-! ## Lemmas about the structured-source dict (Claim C10) -/

theorem norm_fold_inv (base : String) :
    ∀ (items : List RawItem) (m : List (String × Comment)),
      (∀ p ∈ m, p.1 = p.2.id) →
      ∀ p ∈ items.foldl
          (fun m raw =>
            let c := normalize_comment_item base raw
            if c.id ≠ "" then dinsert m c.id c else m) m,
        p.1 = p.2.id := by
  intro items
  induction items with
  | nil => intro m hm p hp; exact hm p hp
  | cons raw items ih =>
    intro m hm p hp
    rw [List.foldl_cons] at hp
    refine ih _ ?_ p hp
    intro q hq
    simp only [] at hq
    by_cases hid : (normalize_comment_item base raw).id ≠ ""
    · rw [if_pos hid] at hq
      rcases mem_dinsert q hq with h | h
      · exact hm q h
      · rw [h]
    · rw [if_neg hid] at hq
      exact hm q hq

theorem norm_fold_values (base : String) :
    ∀ (items : List RawItem) (m : List (String × Comment)),
      ∀ p ∈ items.foldl
          (fun m raw =>
            let c := normalize_comment_item base raw
            if c.id ≠ "" then dinsert m c.id c else m) m,
        p ∈ m ∨ ∃ raw ∈ items, p.2 = normalize_comment_item base raw := by
  intro items
  induction items with
  | nil => intro m p hp; exact Or.inl hp
  | cons raw items ih =>
    intro m p hp
    rw [List.foldl_cons] at hp
    rcases ih _ p hp with h | h
    · simp only [] at h
      by_cases hid : (normalize_comment_item base raw).id ≠ ""
      · rw [if_pos hid] at h
        rcases mem_dinsert p h with h2 | h2
        · exact Or.inl h2
        · exact Or.inr ⟨raw, List.mem_cons_self raw items, by rw [h2]⟩
      · rw [if_neg hid] at h
        exact Or.inl h
    · rcases h with ⟨raw2, hraw2, hp2⟩
      exact Or.inr ⟨raw2, List.mem_cons_of_mem raw hraw2, hp2⟩

theorem norm_fold_keys_nodup (base : String) :
    ∀ (items : List RawItem) (m : List (String × Comment)),
      (m.map Prod.fst).Nodup →
      ((items.foldl
          (fun m raw =>
            let c := normalize_comment_item base raw
            if c.id ≠ "" then dinsert m c.id c else m) m).map Prod.fst).Nodup := by
  intro items
  induction items with
  | nil => intro m hm; exact hm
  | cons raw items ih =>
    intro m hm
    rw [List.foldl_cons]
    refine ih _ ?_
    simp only []
    by_cases hid : (normalize_comment_item base raw).id ≠ ""
    · rw [if_pos hid]
      exact dinsert_keys_nodup m _ _ hm
    · rw [if_neg hid]
      exact hm

/-! ## Claim C10 -/

/-- Claim C10, counterexample: the final `sorted(...)` is not total.
Two items normalizing to ids `"x"` (string key) and `"7"` (integer key)
make the sort raise `TypeError`, so `fetch_recent_comments` returns
nothing rather than a sorted list. -/
theorem fetch_recent_comments_mixed_cex :
    fetch_recent_comments "https://b"
        [{ commentId := some (.ss "x") }, { commentId := some (.ss "7") }] =
      Except.error () := rfl

/-- Claim C10 (amended): `fetch_recent_comments` keeps the
last-normalized record for a duplicated id (last wins — appending a raw
item with an already present id replaces that id's record in place),
discards records with no extractable id, and — on batches whose
normalized keys are uniformly integer or uniformly string (otherwise the
final sort raises `TypeError`, see `fetch_recent_comments_mixed_cex`) —
returns the surviving records with pairwise distinct ids, sorted
ascending by the ordering key. -/
theorem fetch_recent_comments_spec :
    (∀ (base : String) (items : List RawItem) (raw : RawItem),
      (normalize_comment_item base raw).id ≠ "" →
      dlookup (norm_fold base (items ++ [raw])) (normalize_comment_item base raw).id =
        some (normalize_comment_item base raw)) ∧
    (∀ (base : String) (items : List RawItem) (raw : RawItem),
      (normalize_comment_item base raw).id = "" →
      norm_fold base (items ++ [raw]) = norm_fold base items) ∧
    (∀ (base : String) (items : List RawItem) (kb : Bool),
      (∀ raw ∈ items, (comment_sort_key (normalize_comment_item base raw)).isNum = kb) →
      (fetch_recent_comments base items).isOk = true ∧
      ∀ out, fetch_recent_comments base items = .ok out →
        out.Perm ((norm_fold base items).map Prod.snd) ∧
        (out.map Comment.id).Nodup ∧
        out.Pairwise (fun a b => cmpLeB a b = true)) := by
  refine ⟨?_, ?_, ?_⟩
  · intro base items raw h
    rw [norm_fold, List.foldl_append, List.foldl_cons, List.foldl_nil]
    simp only []
    rw [if_pos h, dlookup_dinsert, if_pos rfl]
  · intro base items raw h
    rw [norm_fold, List.foldl_append, List.foldl_cons, List.foldl_nil]
    simp only []
    rw [if_neg (by simp [h]), norm_fold]
  · intro base items kb hk
    have hvals : ∀ c ∈ (norm_fold base items).map Prod.snd,
        (comment_sort_key c).isNum = kb := by
      intro c hc
      rcases List.mem_map.mp hc with ⟨p, hp, rfl⟩
      rcases norm_fold_values base items [] p hp with h | h
      · cases h
      · rcases h with ⟨raw, hraw, hp2⟩
        rw [hp2]
        exact hk raw hraw
    obtain ⟨out, ho⟩ := sortByKeyE_total hvals
    refine ⟨by rw [fetch_recent_comments, ho]; rfl, ?_⟩
    intro out2 ho2
    have hperm := sortByKeyE_perm ho2
    refine ⟨hperm, ?_, sortByKeyE_pairwise ho2⟩
    have hkeys : ((norm_fold base items).map Prod.fst).Nodup :=
      norm_fold_keys_nodup base items [] (by simp)
    have hids : ((norm_fold base items).map Prod.snd).map Comment.id =
        (norm_fold base items).map Prod.fst := by
      rw [List.map_map]
      apply List.map_congr_left
      intro p hp
      exact (norm_fold_inv base items [] (fun q hq => absurd hq (List.not_mem_nil q)) p hp).symm
    have hperm2 := hperm.map Comment.id
    rw [hids] at hperm2
    exact hperm2.nodup_iff.mpr hkeys

/-- Concrete instance of `fetch_recent_comments_spec`: a duplicated id
(last record wins), an item without id (discarded), and a sorted
distinct-id result. -/
theorem fetch_recent_comments_spec_witness :
    dlookup
        (norm_fold "https://b"
          ([{ commentId := some (.ss "9") }] ++
            [{ commentId := some (.ss "9"),
               user := some { username := some (.ss "al") } }]))
        (normalize_comment_item "https://b"
          { commentId := some (.ss "9"),
            user := some { username := some (.ss "al") } }).id =
      some (normalize_comment_item "https://b"
        { commentId := some (.ss "9"),
          user := some { username := some (.ss "al") } }) ∧
    norm_fold "https://b" ([{ commentId := some (.ss "9") }] ++ [{ commentId := none }]) =
      norm_fold "https://b" [{ commentId := some (.ss "9") }] ∧
    (fetch_recent_comments "https://b"
        [{ commentId := some (.ss "12") }, { commentId := some (.ss "5") }]).isOk = true ∧
    (([{ id := "5" }, { id := "12" }] : List Comment).map Comment.id).Nodup := by
  have h3 := (fetch_recent_comments_spec.2.2 "https://b"
    [{ commentId := some (.ss "12") }, { commentId := some (.ss "5") }] true (by decide))
  refine ⟨fetch_recent_comments_spec.1 "https://b" [{ commentId := some (.ss "9") }]
      { commentId := some (.ss "9"), user := some { username := some (.ss "al") } }
      (by decide),
    fetch_recent_comments_spec.2.1 "https://b" [{ commentId := some (.ss "9") }]
      { commentId := none } (by decide),
    h3.1, ?_⟩
  have h4 := (h3.2 [{ id := "5", created_ts := none }, { id := "12", created_ts := none }]
    rfl).2.1
  exact h4

end MydealzMonitor
